import Mathlib

/-!
Verification of the os-unfair-lock crate (src/lib.rs): a `Mutex<T>` wrapper
around the macOS `os_unfair_lock` primitive, with a scoped `MutexGuard`.

The raw lock (`os_unfair_lock_lock` / `unlock` / `trylock`) is an external
libSystem primitive, not part of the crate's source; it is modelled here from
the spec's state machine (states UNLOCKED / LOCKED / LOCKED_WITH_WAITERS,
release from any locked state goes to UNLOCKED, try-acquire succeeds exactly
from UNLOCKED).  The lock word is a `u32` modelled as `Nat`; the documented
unlocked bit pattern is 0 and a nonzero word means some locked state.

The crate's own code (`Mutex::new`, `lock`, `try_lock`, `into_inner`,
`MutexGuard`'s `Deref`/`DerefMut`/`Drop`/formatting impls) is embedded as
state-passing functions on the container value; each operation additionally
returns the list of raw-lock calls it performs, so that "performs exactly one
release" style properties can be stated.
-/

namespace OsUnfairLock

/-- The documented static "unlocked" initializer for the lock word
(`OS_UNFAIR_LOCK_INIT` in the source, value 0). -/
def OS_UNFAIR_LOCK_INIT : Nat := 0

/-- Modelled from the spec: the encoding of the `LOCKED` state of the raw
lock.  Only the unlocked pattern (0) is documented; any nonzero word encodes
a locked state, and the model uses 1 for a lock just taken. -/
def LOCKED : Nat := 1

/-- Modelled from the spec: raw blocking acquire (`os_unfair_lock_lock`,
external to the crate).  From `UNLOCKED` the lock moves to `LOCKED`
immediately; while the lock is held the caller blocks, which in a sequential
trace means the call does not return (`none`). -/
def os_unfair_lock_lock (w : Nat) : Option Nat :=
  if w = 0 then some LOCKED else none

/-- Modelled from the spec: raw release (`os_unfair_lock_unlock`, external to
the crate).  Release from any locked state moves the word to `UNLOCKED`. -/
def os_unfair_lock_unlock (_w : Nat) : Nat := OS_UNFAIR_LOCK_INIT

/-- Modelled from the spec: raw non-blocking acquire (`os_unfair_lock_trylock`,
external to the crate).  From `UNLOCKED` it succeeds: nonzero success flag and
the word moves to `LOCKED`; otherwise it fails: flag 0 and no state change.
The flag is the `u8` return value of the C function. -/
def os_unfair_lock_trylock (w : Nat) : Nat × Nat :=
  if w = 0 then (1, LOCKED) else (0, w)

/-- A raw-lock call performed by an operation of the crate. -/
inductive RawCall : Type where
  | lockCall : RawCall
  | unlockCall : RawCall
  | trylockCall : RawCall
  deriving DecidableEq, Repr

/-- The guarded value container (`Mutex<T>` in the source): the lock word
(`lock: os_unfair_lock`) together with the protected value
(`cell: UnsafeCell<T>`). -/
structure Mutex (T : Type) : Type where
  lock : Nat
  cell : T
  deriving DecidableEq, Repr

/-- The scoped access token (`MutexGuard<'a, T>` in the source): holds a
back-reference to the container it was issued from (`mutex: &'a Mutex<T>`),
modelled as the container value at issuance. -/
structure MutexGuard (T : Type) : Type where
  mutex : Mutex T
  deriving DecidableEq, Repr

/-- Embeds `Mutex::new(value)`: a const constructor storing `value` with the lock
word set to `OS_UNFAIR_LOCK_INIT`. -/
def Mutex.new {T : Type} (value : T) : Mutex T :=
  { lock := OS_UNFAIR_LOCK_INIT, cell := value }

/-- Embeds `Mutex::lock`: calls `os_unfair_lock_lock` on the lock word, then returns
`MutexGuard { mutex: self }`.  `none` models the call blocking forever in a
sequential trace (the word was already locked). -/
def Mutex.lock_acquire {T : Type} (m : Mutex T) :
    Option (MutexGuard T × Mutex T × List RawCall) :=
  match os_unfair_lock_lock m.lock with
  | some w => some ({ mutex := m }, { m with lock := w }, [RawCall.lockCall])
  | none => none

/-- The branch of `Mutex::try_lock` after the raw call: given the `u8` flag
`ok` returned by `os_unfair_lock_trylock`, the source returns
`Some(MutexGuard { mutex: self })` when `ok != 0` and `None` otherwise. -/
def Mutex.try_lock_interpret {T : Type} (m : Mutex T) (ok : Nat) :
    Option (MutexGuard T) :=
  if ok ≠ 0 then some { mutex := m } else none

/-- Embeds `Mutex::try_lock`: calls `os_unfair_lock_trylock`, then tests the
returned flag against 0. -/
def Mutex.try_lock {T : Type} (m : Mutex T) :
    Option (MutexGuard T) × Mutex T × List RawCall :=
  let r := os_unfair_lock_trylock m.lock
  (Mutex.try_lock_interpret m r.1, { m with lock := r.2 }, [RawCall.trylockCall])

/-- Embeds `Mutex::into_inner`: consumes the container and returns the protected
value (`self.cell.into_inner()`), performing no raw-lock call. -/
def Mutex.into_inner {T : Type} (m : Mutex T) : T × List RawCall :=
  (m.cell, [])

/-- Embeds `Deref for MutexGuard`: reading the protected value through the token
(`&*self.mutex.cell.get()`); performs no raw-lock call. -/
def MutexGuard.deref {T : Type} (m : Mutex T) : T × List RawCall :=
  (m.cell, [])

/-- Writing the protected value through the token's `DerefMut` view
(`&mut *self.mutex.cell.get()`); performs no raw-lock call. -/
def MutexGuard.write {T : Type} (x : T) (m : Mutex T) : Mutex T × List RawCall :=
  ({ m with cell := x }, [])

/-- Embeds `Drop for MutexGuard`: calls `os_unfair_lock_unlock` on the container's
lock word, exactly once. -/
def MutexGuard.drop {T : Type} (m : Mutex T) : Mutex T × List RawCall :=
  ({ m with lock := os_unfair_lock_unlock m.lock }, [RawCall.unlockCall])

/-- Embeds `Debug`/`Display for MutexGuard`: formats the dereferenced protected
value (`(**self).fmt(f)`), given a formatter `fmtT` for the value type;
performs no raw-lock call. -/
def MutexGuard.fmt {T : Type} (fmtT : T → String) (m : Mutex T) :
    String × List RawCall :=
  (fmtT (MutexGuard.deref m).1, [])

/-- Embeds `Debug`/`Display for Mutex` (`self.lock().fmt(f)`) — acquire a temporary
token, format the protected value through it, and drop the token at the end
of the statement. -/
def Mutex.fmt_acquiring {T : Type} (fmtT : T → String) (m : Mutex T) :
    Option (String × Mutex T × List RawCall) :=
  (Mutex.lock_acquire m).map fun r =>
    match r with
    | (_, m1, e1) =>
      let s := MutexGuard.fmt fmtT m1
      let d := MutexGuard.drop m1
      (s.1, d.1, e1 ++ s.2 ++ d.2)

/-- Embeds `Default for Mutex` (`Mutex::new(T::default())`), with Rust's `Default`
rendered as Lean's `Inhabited`. -/
def Mutex.defaultMutex {T : Type} [Inhabited T] : Mutex T :=
  Mutex.new (default : T)

/-! ### Basic lemmas about the container operations -/

theorem lock_acquire_of_unlocked {T : Type} (m : Mutex T) (h : m.lock = 0) :
    Mutex.lock_acquire m =
      some ({ mutex := m }, { m with lock := LOCKED }, [RawCall.lockCall]) := by
  simp [Mutex.lock_acquire, os_unfair_lock_lock, h]

theorem lock_acquire_of_locked {T : Type} (m : Mutex T) (h : m.lock ≠ 0) :
    Mutex.lock_acquire m = none := by
  simp [Mutex.lock_acquire, os_unfair_lock_lock, h]

theorem try_lock_of_unlocked {T : Type} (m : Mutex T) (h : m.lock = 0) :
    Mutex.try_lock m =
      (some { mutex := m }, { m with lock := LOCKED }, [RawCall.trylockCall]) := by
  simp [Mutex.try_lock, os_unfair_lock_trylock, Mutex.try_lock_interpret, h]

theorem try_lock_of_locked {T : Type} (m : Mutex T) (h : m.lock ≠ 0) :
    Mutex.try_lock m = (none, m, [RawCall.trylockCall]) := by
  simp [Mutex.try_lock, os_unfair_lock_trylock, Mutex.try_lock_interpret, h]

/-! ### Claims about the individual operations -/

/-- Claim C5: for every value `x`, `Mutex::new(x)` followed by `into_inner()`
returns exactly `x`, and the extraction performs no raw-lock call at all
(in particular no acquire and no release). -/
theorem new_into_inner_round_trip {T : Type} (x : T) :
    Mutex.into_inner (Mutex.new x) = (x, []) := rfl

/-- Claim C7: for every value `v`, `Mutex::new(v)` stores `v` as the
protected value and sets the lock word to `OS_UNFAIR_LOCK_INIT`, the
documented unlocked constant 0; being a plain constructor into `Mutex T` it
performs no raw-lock call. -/
theorem new_initializes_unlocked {T : Type} (v : T) :
    Mutex.new v = { lock := 0, cell := v } ∧ OS_UNFAIR_LOCK_INIT = 0 :=
  ⟨rfl, rfl⟩

/-- Claim C9: default construction (`Default for Mutex`) wraps the default
value of the protected type: it equals `Mutex::new(default)`, so its
protected value is the default and its lock word is unlocked (0). -/
theorem default_wraps_default {T : Type} [Inhabited T] :
    Mutex.defaultMutex = Mutex.new (default : T) ∧
    (Mutex.defaultMutex : Mutex T).cell = (default : T) ∧
    (Mutex.defaultMutex : Mutex T).lock = 0 :=
  ⟨rfl, rfl, rfl⟩

/-- Claim C3: dropping a token performs exactly one release call
(`os_unfair_lock_unlock`) on the container it was issued from, taking the
lock word from a locked (nonzero) state to the unlocked state 0 and leaving
the protected value untouched; the token's other operations (deref, write
through deref-mut, formatting) perform no raw-lock call, hence no release. -/
theorem guard_drop_releases_once {T : Type} (m : Mutex T) (hlocked : m.lock ≠ 0) :
    (MutexGuard.drop m).2 = [RawCall.unlockCall] ∧
    (MutexGuard.drop m).1.lock = 0 ∧
    (MutexGuard.drop m).1.cell = m.cell ∧
    (MutexGuard.deref m).2 = [] ∧
    (∀ x : T, (MutexGuard.write x m).2 = []) ∧
    (∀ fmtT : T → String, (MutexGuard.fmt fmtT m).2 = []) := by
  refine ⟨rfl, rfl, rfl, rfl, fun x => rfl, fun fmtT => rfl⟩

theorem guard_drop_releases_once_witness :
    ({ lock := 1, cell := (0 : Nat) } : Mutex Nat).lock ≠ 0 ∧
    (MutexGuard.drop ({ lock := 1, cell := (0 : Nat) } : Mutex Nat)).2 =
      [RawCall.unlockCall] :=
  ⟨by decide,
   (guard_drop_releases_once ({ lock := 1, cell := (0 : Nat) } : Mutex Nat)
     (by decide)).1⟩

/-- Claim C4: `try_lock` returns a token exactly when the raw try-acquire
succeeds, i.e. exactly when the lock word is unlocked (0), in which case the
lock word afterwards is locked; when the lock is held it returns `None` and
the container state is unchanged. -/
theorem try_lock_spec {T : Type} (m : Mutex T) :
    (m.lock = 0 →
      (Mutex.try_lock m).1 = some { mutex := m } ∧
      (Mutex.try_lock m).2.1.lock = LOCKED ∧
      (Mutex.try_lock m).2.1.cell = m.cell) ∧
    (m.lock ≠ 0 →
      (Mutex.try_lock m).1 = none ∧ (Mutex.try_lock m).2.1 = m) := by
  constructor
  · intro h
    rw [try_lock_of_unlocked m h]
    exact ⟨rfl, rfl, rfl⟩
  · intro h
    rw [try_lock_of_locked m h]
    exact ⟨rfl, rfl⟩

theorem try_lock_spec_witness :
    ((Mutex.new (42 : Nat)).lock = 0 ∧
      (Mutex.try_lock (Mutex.new (42 : Nat))).1 = some { mutex := Mutex.new 42 }) ∧
    (({ lock := 1, cell := (7 : Nat) } : Mutex Nat).lock ≠ 0 ∧
      (Mutex.try_lock ({ lock := 1, cell := (7 : Nat) } : Mutex Nat)).1 = none) :=
  ⟨⟨rfl, ((try_lock_spec (Mutex.new (42 : Nat))).1 rfl).1⟩,
   ⟨by decide,
    ((try_lock_spec ({ lock := 1, cell := (7 : Nat) } : Mutex Nat)).2
      (by decide)).1⟩⟩

/-- Claim C10: `try_lock` interprets the raw `u8` success flag as success
exactly when it is nonzero — any nonzero byte, not only 1, yields a token —
and the token returned on success carries a back-reference to the very
container the call was made on; moreover `try_lock`'s result is this
interpretation applied to the flag returned by `os_unfair_lock_trylock`. -/
theorem try_lock_flag_interpretation {T : Type} (m : Mutex T) (ok : Nat)
    (hbyte : ok < 256) :
    (ok ≠ 0 → Mutex.try_lock_interpret m ok = some { mutex := m }) ∧
    (ok = 0 → Mutex.try_lock_interpret m ok = none) ∧
    (∀ g : MutexGuard T, Mutex.try_lock_interpret m ok = some g → g.mutex = m) ∧
    (Mutex.try_lock m).1 =
      Mutex.try_lock_interpret m (os_unfair_lock_trylock m.lock).1 := by
  refine ⟨fun h => ?_, fun h => ?_, fun g hg => ?_, rfl⟩
  · simp [Mutex.try_lock_interpret, h]
  · simp [Mutex.try_lock_interpret, h]
  · by_cases h : ok = 0
    · simp [Mutex.try_lock_interpret, h] at hg
    · simp [Mutex.try_lock_interpret, h] at hg
      exact congrArg MutexGuard.mutex hg.symm

theorem try_lock_flag_interpretation_witness :
    (2 : Nat) < 256 ∧
    Mutex.try_lock_interpret (Mutex.new (5 : Nat)) 2 = some { mutex := Mutex.new 5 } :=
  ⟨by decide,
   (try_lock_flag_interpretation (Mutex.new (5 : Nat)) 2 (by decide)).1 (by decide)⟩

/-- The `tests::basics` scenario of the source: start from `Mutex::new(42)`,
increment the protected value through a token obtained from `lock`, drop it,
increment through a token obtained from `try_lock`, drop it, then acquire
again and read the value. -/
def basicsScenario : Option Nat :=
  let m0 := Mutex.new (42 : Nat)
  (Mutex.lock_acquire m0).bind fun r1 =>
    let m1 := r1.2.1
    let m2 := (MutexGuard.write ((MutexGuard.deref m1).1 + 1) m1).1
    let m3 := (MutexGuard.drop m2).1
    let t := Mutex.try_lock m3
    t.1.bind fun _ =>
      let m4 := t.2.1
      let m5 := (MutexGuard.write ((MutexGuard.deref m4).1 + 1) m4).1
      let m6 := (MutexGuard.drop m5).1
      (Mutex.lock_acquire m6).map fun r2 => (MutexGuard.deref r2.2.1).1

/-- Claim C6: starting from `Mutex::new(42)`, incrementing through an
acquired token, then through a try-acquired token (each token dropped after
its increment), a final acquire observes the value 44. -/
theorem basics_observes_44 : basicsScenario = some 44 := rfl

/-- Claim C8: formatting the container (`Debug`/`Display for Mutex`, which
runs on an unlocked container) equals the sequence acquire token / format the
protected value through the token / release on token drop: the raw calls are
exactly one acquire followed by one release, the formatted output equals
formatting the protected value directly, and the container afterwards equals
the container before. -/
theorem fmt_refines_lock_fmt_drop {T : Type} (fmtT : T → String) (m : Mutex T)
    (h : m.lock = 0) :
    Mutex.fmt_acquiring fmtT m =
      some (fmtT m.cell, m, [RawCall.lockCall, RawCall.unlockCall]) := by
  obtain ⟨l, c⟩ := m
  simp only [Mutex.lock] at h
  subst h
  rfl

theorem fmt_refines_lock_fmt_drop_witness :
    Mutex.fmt_acquiring (fun n : Nat => toString n) (Mutex.new 7) =
      some (toString (7 : Nat), Mutex.new 7, [RawCall.lockCall, RawCall.unlockCall]) :=
  fmt_refines_lock_fmt_drop (fun n : Nat => toString n) (Mutex.new 7) rfl

/-! ### Lock word vs. live tokens: sequences of container operations -/

/-- A container state paired with the number of live tokens issued from it
and not yet dropped, for stating the lock-word/token invariant. -/
structure TokState (T : Type) : Type where
  m : Mutex T
  live : Nat
  deriving DecidableEq, Repr

/-- One container operation: a (successful) blocking acquire, a try-acquire
— successful or failed —, or the drop of a live token.  Each case takes its
next state from the corresponding embedded operation. -/
inductive OpStep {T : Type} : TokState T → TokState T → Prop where
  | lockOp (s : TokState T) (g : MutexGuard T) (m1 : Mutex T) (e : List RawCall)
      (h : Mutex.lock_acquire s.m = some (g, m1, e)) :
      OpStep s { m := m1, live := s.live + 1 }
  | tryOk (s : TokState T) (g : MutexGuard T) (m1 : Mutex T) (e : List RawCall)
      (h : Mutex.try_lock s.m = (some g, m1, e)) :
      OpStep s { m := m1, live := s.live + 1 }
  | tryFail (s : TokState T) (m1 : Mutex T) (e : List RawCall)
      (h : Mutex.try_lock s.m = (none, m1, e)) :
      OpStep s { m := m1, live := s.live }
  | dropOp (s : TokState T) (h : 0 < s.live) :
      OpStep s { m := (MutexGuard.drop s.m).1, live := s.live - 1 }

/-- The lock-word/token invariant is preserved by every container
operation. -/
theorem opStep_preserves_inv {T : Type} {a c : TokState T} (hstep : OpStep a c)
    (ihiff : a.m.lock ≠ 0 ↔ 0 < a.live) (ihle : a.live ≤ 1) :
    (c.m.lock ≠ 0 ↔ 0 < c.live) ∧ c.live ≤ 1 := by
  cases hstep with
  | lockOp g m1 e h =>
    by_cases h0 : a.m.lock = 0
    · rw [lock_acquire_of_unlocked a.m h0] at h
      obtain ⟨rfl, rfl, rfl⟩ :
          { mutex := a.m } = g ∧
            ({ lock := LOCKED, cell := a.m.cell } : Mutex T) = m1 ∧
            [RawCall.lockCall] = e := by
        simpa using h
      have hlive : a.live = 0 := by
        by_contra hne
        exact ihiff.mpr (Nat.pos_of_ne_zero hne) h0
      simp [hlive, LOCKED]
    · rw [lock_acquire_of_locked a.m h0] at h
      exact absurd h (by simp)
  | tryOk g m1 e h =>
    by_cases h0 : a.m.lock = 0
    · rw [try_lock_of_unlocked a.m h0] at h
      obtain ⟨-, rfl, rfl⟩ :
          ({ mutex := a.m } : MutexGuard T) = g ∧
            ({ lock := LOCKED, cell := a.m.cell } : Mutex T) = m1 ∧
            [RawCall.trylockCall] = e := by
        simpa using h
      have hlive : a.live = 0 := by
        by_contra hne
        exact ihiff.mpr (Nat.pos_of_ne_zero hne) h0
      simp [hlive, LOCKED]
    · rw [try_lock_of_locked a.m h0] at h
      exact absurd h (by simp)
  | tryFail m1 e h =>
    by_cases h0 : a.m.lock = 0
    · rw [try_lock_of_unlocked a.m h0] at h
      exact absurd h (by simp)
    · rw [try_lock_of_locked a.m h0] at h
      obtain ⟨rfl, rfl⟩ : a.m = m1 ∧ [RawCall.trylockCall] = e := by
        simpa using h
      exact ⟨ihiff, ihle⟩
  | dropOp h =>
    have hlive : a.live = 1 := Nat.le_antisymm ihle h
    refine ⟨?_, by simp [hlive]⟩
    simp [MutexGuard.drop, os_unfair_lock_unlock, OS_UNFAIR_LOCK_INIT, hlive]

/-- Claim C2: in every state reachable from a freshly constructed container
by container operations (acquire, try-acquire, token drop), the lock word is
in a locked (nonzero) state exactly when a live token exists, and at most one
token is live at a time. -/
theorem lock_state_reflects_token {T : Type} (v : T) (s : TokState T)
    (h : Relation.ReflTransGen OpStep { m := Mutex.new v, live := 0 } s) :
    (s.m.lock ≠ 0 ↔ 0 < s.live) ∧ s.live ≤ 1 := by
  induction h with
  | refl => exact ⟨by simp [Mutex.new, OS_UNFAIR_LOCK_INIT], by simp⟩
  | tail hab hbc ih => exact opStep_preserves_inv hbc ih.1 ih.2

theorem lock_state_reflects_token_witness :
    ((({ m := { lock := LOCKED, cell := (0 : Nat) }, live := 1 } :
        TokState Nat).m.lock ≠ 0 ↔
      0 < ({ m := { lock := LOCKED, cell := (0 : Nat) }, live := 1 } :
        TokState Nat).live) ∧
      ({ m := { lock := LOCKED, cell := (0 : Nat) }, live := 1 } :
        TokState Nat).live ≤ 1) :=
  lock_state_reflects_token (0 : Nat)
    { m := { lock := LOCKED, cell := 0 }, live := 1 }
    (Relation.ReflTransGen.single
      (by
        have h : Mutex.lock_acquire (Mutex.new (0 : Nat)) =
            some ({ mutex := Mutex.new 0 },
              { lock := LOCKED, cell := 0 }, [RawCall.lockCall]) := rfl
        exact OpStep.lockOp { m := Mutex.new 0, live := 0 }
          { mutex := Mutex.new 0 } { lock := LOCKED, cell := 0 }
          [RawCall.lockCall] h))

/-! ### Mutual exclusion: N threads each performing M increments

The spec's mutual-exclusion property is about preemptively scheduled
threads, so it is settled against an interleaving semantics: each thread
runs `M` iterations of `*mutex.lock() += 1`, split into its micro-steps
(acquire the raw lock, read the counter through the guard, write the
incremented value through the guard, release on guard drop), and a scheduler
may interleave the micro-steps of different threads arbitrarily.  The
acquire and release micro-steps take their lock-word transitions from the
raw-lock model (`os_unfair_lock_lock` / `os_unfair_lock_unlock`). -/

/-- Program counter of one incrementing thread: between increments
(`ready`), holding the lock before reading the counter (`acquired`), holding
the lock having read the counter into a local (`readDone v`, the read half of
`*guard += 1`), or holding the lock having written back (`wrote`). -/
inductive TPC : Type where
  | ready : TPC
  | acquired : TPC
  | readDone (v : Nat) : TPC
  | wrote : TPC
  deriving DecidableEq, Repr

/-- One incrementing thread: how many increments it still has to start, and
its program counter. -/
structure Thread : Type where
  rem : Nat
  pc : TPC
  deriving DecidableEq, Repr

/-- A configuration of the whole system: the shared lock word, the shared
counter protected by it, and the pool of threads (order irrelevant). -/
structure SysConfig : Type where
  lock : Nat
  counter : Nat
  threads : Multiset Thread
  deriving DecidableEq

/-- One scheduler-chosen micro-step of some thread.  A thread can acquire
only when the raw blocking acquire would return (lock word unlocked); while
it holds the lock it reads the counter, writes back the incremented local,
and finally releases by dropping its guard. -/
inductive IncStep : SysConfig → SysConfig → Prop where
  | acquire (c : SysConfig) (t : Thread) (w : Nat) (h : t ∈ c.threads)
      (hpc : t.pc = TPC.ready) (hrem : 0 < t.rem)
      (hlock : os_unfair_lock_lock c.lock = some w) :
      IncStep c
        { lock := w, counter := c.counter,
          threads := { rem := t.rem, pc := TPC.acquired } ::ₘ c.threads.erase t }
  | read (c : SysConfig) (t : Thread) (h : t ∈ c.threads)
      (hpc : t.pc = TPC.acquired) :
      IncStep c
        { lock := c.lock, counter := c.counter,
          threads := { rem := t.rem, pc := TPC.readDone c.counter } ::ₘ
            c.threads.erase t }
  | write (c : SysConfig) (t : Thread) (v : Nat) (h : t ∈ c.threads)
      (hpc : t.pc = TPC.readDone v) :
      IncStep c
        { lock := c.lock, counter := v + 1,
          threads := { rem := t.rem, pc := TPC.wrote } ::ₘ c.threads.erase t }
  | release (c : SysConfig) (t : Thread) (h : t ∈ c.threads)
      (hpc : t.pc = TPC.wrote) :
      IncStep c
        { lock := os_unfair_lock_unlock c.lock, counter := c.counter,
          threads := { rem := t.rem - 1, pc := TPC.ready } ::ₘ
            c.threads.erase t }

/-- Initial configuration: a freshly constructed `Mutex::new(0)` (unlocked,
counter 0) shared by `n` threads that each have `m` increments to do. -/
def initConfig (n m : Nat) : SysConfig :=
  { lock := (Mutex.new (0 : Nat)).lock, counter := (Mutex.new (0 : Nat)).cell,
    threads := Multiset.replicate n { rem := m, pc := TPC.ready } }

/-- Every thread has finished all its increments. -/
def AllDone (c : SysConfig) : Prop :=
  ∀ t ∈ c.threads, t.pc = TPC.ready ∧ t.rem = 0

/-- How many increments thread `t` has applied to the counter so far, out of
`m` each: an increment is counted from its write step (`wrote`), while `rem`
is only decremented at release. -/
def contrib (m : Nat) (t : Thread) : Nat :=
  (m - t.rem) + (if t.pc = TPC.wrote then 1 else 0)

/-- The inductive invariant of the increment system: remaining counts are
bounded by `m`; the counter equals the total number of increments applied;
and either the lock is unlocked and no thread is mid-increment, or the lock
is held and exactly one thread is mid-increment — with its local read value,
if any, equal to the current counter. -/
def IncInv (m : Nat) (c : SysConfig) : Prop :=
  (∀ t ∈ c.threads, t.rem ≤ m) ∧
  c.counter = (c.threads.map (contrib m)).sum ∧
  ((c.lock = 0 ∧ ∀ t ∈ c.threads, t.pc = TPC.ready) ∨
   (c.lock ≠ 0 ∧ ∃ t rest, c.threads = t ::ₘ rest ∧ t.pc ≠ TPC.ready ∧
      0 < t.rem ∧ (∀ u ∈ rest, u.pc = TPC.ready) ∧
      (∀ v, t.pc = TPC.readDone v → v = c.counter)))

theorem os_lock_some {l w : Nat} (h : os_unfair_lock_lock l = some w) :
    l = 0 ∧ w = LOCKED := by
  by_cases h0 : l = 0
  · rw [os_unfair_lock_lock, if_pos h0] at h
    exact ⟨h0, (Option.some.inj h).symm⟩
  · rw [os_unfair_lock_lock, if_neg h0] at h
    cases h

/-- If the invariant holds and some thread is mid-increment, the lock is
held, that thread is the only one mid-increment, and its local read value,
if any, is the counter. -/
theorem inv_locate {m : Nat} {c : SysConfig} (hinv : IncInv m c) (t : Thread)
    (ht : t ∈ c.threads) (hnr : t.pc ≠ TPC.ready) :
    c.lock ≠ 0 ∧ 0 < t.rem ∧ (∀ u ∈ c.threads.erase t, u.pc = TPC.ready) ∧
      (∀ v, t.pc = TPC.readDone v → v = c.counter) := by
  obtain ⟨-, -, hdisj⟩ := hinv
  rcases hdisj with ⟨-, hready⟩ | ⟨hl, s, rest, heq, hs, hsrem, hrest, hsread⟩
  · exact absurd (hready t ht) hnr
  · have hts : t = s := by
      rcases Multiset.mem_cons.mp (heq ▸ ht) with h | h
      · exact h
      · exact absurd (hrest t h) hnr
    subst hts
    have herase : c.threads.erase t = rest := by
      rw [heq, Multiset.erase_cons_head]
    exact ⟨hl, hsrem, fun u hu => hrest u (herase ▸ hu), hsread⟩

theorem sum_map_const_of {α : Type} (s : Multiset α) (f : α → Nat) (k : Nat)
    (h : ∀ a ∈ s, f a = k) : (s.map f).sum = Multiset.card s * k := by
  induction s using Multiset.induction with
  | empty => simp
  | cons a s ih =>
    rw [Multiset.map_cons, Multiset.sum_cons, Multiset.card_cons,
      h a (Multiset.mem_cons_self a s), ih fun b hb => h b (Multiset.mem_cons_of_mem hb),
      Nat.succ_mul, Nat.add_comm]

/-- Every micro-step preserves the increment-system invariant. -/
theorem incStep_preserves_inv {m : Nat} {a c : SysConfig} (hstep : IncStep a c)
    (hinv : IncInv m a) : IncInv m c := by
  obtain ⟨hrem, hsum, hdisj⟩ := hinv
  cases hstep with
  | acquire t w h hpc hrem0 hlock =>
    obtain ⟨hl0, hw⟩ := os_lock_some hlock
    have hready : ∀ u ∈ a.threads, u.pc = TPC.ready := by
      rcases hdisj with ⟨-, hr⟩ | ⟨hne, -⟩
      · exact hr
      · exact absurd hl0 hne
    have hcons := Multiset.cons_erase h
    refine ⟨?_, ?_, Or.inr ⟨by simp [hw, LOCKED],
      ⟨t.rem, TPC.acquired⟩, a.threads.erase t, rfl, by simp, hrem0,
      fun u hu => hready u (Multiset.mem_of_mem_erase hu), by simp⟩⟩
    · intro u hu
      rcases Multiset.mem_cons.mp hu with rfl | hu
      · exact hrem t h
      · exact hrem u (Multiset.mem_of_mem_erase hu)
    · show a.counter = _
      rw [Multiset.map_cons, Multiset.sum_cons]
      conv_lhs => rw [hsum, ← hcons, Multiset.map_cons, Multiset.sum_cons]
      simp [contrib, hpc]
  | read t h hpc =>
    obtain ⟨hl, hrem0, herase, -⟩ :=
      inv_locate ⟨hrem, hsum, hdisj⟩ t h (by simp [hpc])
    have hcons := Multiset.cons_erase h
    refine ⟨?_, ?_, Or.inr ⟨hl, ⟨t.rem, TPC.readDone a.counter⟩,
      a.threads.erase t, rfl, by simp, hrem0, herase, ?_⟩⟩
    · intro u hu
      rcases Multiset.mem_cons.mp hu with rfl | hu
      · exact hrem t h
      · exact hrem u (Multiset.mem_of_mem_erase hu)
    · show a.counter = _
      rw [Multiset.map_cons, Multiset.sum_cons]
      conv_lhs => rw [hsum, ← hcons, Multiset.map_cons, Multiset.sum_cons]
      simp [contrib, hpc]
    · intro v hv
      exact (TPC.readDone.inj hv).symm
  | write t v h hpc =>
    obtain ⟨hl, hrem0, herase, hread⟩ :=
      inv_locate ⟨hrem, hsum, hdisj⟩ t h (by simp [hpc])
    have hv : v = a.counter := hread v hpc
    have hcons := Multiset.cons_erase h
    refine ⟨?_, ?_, Or.inr ⟨hl, ⟨t.rem, TPC.wrote⟩,
      a.threads.erase t, rfl, by simp, hrem0, herase, by simp⟩⟩
    · intro u hu
      rcases Multiset.mem_cons.mp hu with rfl | hu
      · exact hrem t h
      · exact hrem u (Multiset.mem_of_mem_erase hu)
    · show v + 1 = _
      rw [Multiset.map_cons, Multiset.sum_cons]
      have : a.counter =
          contrib m t + ((a.threads.erase t).map (contrib m)).sum := by
        conv_lhs => rw [hsum, ← hcons, Multiset.map_cons, Multiset.sum_cons]
      rw [hv, this]
      simp only [contrib, hpc]
      simp
      omega
  | release t h hpc =>
    obtain ⟨hl, hrem0, herase, -⟩ :=
      inv_locate ⟨hrem, hsum, hdisj⟩ t h (by simp [hpc])
    have hcons := Multiset.cons_erase h
    have htm : t.rem ≤ m := hrem t h
    refine ⟨?_, ?_, Or.inl ⟨rfl, ?_⟩⟩
    · intro u hu
      rcases Multiset.mem_cons.mp hu with rfl | hu
      · exact Nat.le_trans (Nat.sub_le _ _) htm
      · exact hrem u (Multiset.mem_of_mem_erase hu)
    · show a.counter = _
      rw [Multiset.map_cons, Multiset.sum_cons]
      conv_lhs => rw [hsum, ← hcons, Multiset.map_cons, Multiset.sum_cons]
      simp only [contrib, hpc]
      simp
      omega
    · intro u hu
      rcases Multiset.mem_cons.mp hu with rfl | hu
      · rfl
      · exact herase u hu

/-- Every reachable configuration of the increment system satisfies the
invariant. -/
theorem reach_inv {n m : Nat} {c : SysConfig}
    (h : Relation.ReflTransGen IncStep (initConfig n m) c) : IncInv m c := by
  induction h with
  | refl =>
    refine ⟨?_, ?_, Or.inl ⟨rfl, ?_⟩⟩
    · intro t ht
      rw [Multiset.eq_of_mem_replicate ht]
    · show (0 : Nat) = _
      rw [sum_map_const_of _ _ 0 ?_]
      · simp
      · intro t ht
        rw [Multiset.eq_of_mem_replicate ht]
        simp [contrib]
    · intro t ht
      rw [Multiset.eq_of_mem_replicate ht]
  | tail hab hbc ih => exact incStep_preserves_inv hbc ih

/-- Micro-steps do not change the number of threads. -/
theorem incStep_card {a c : SysConfig} (h : IncStep a c) :
    Multiset.card c.threads = Multiset.card a.threads := by
  cases h with
  | acquire t w h hpc hrem hlock =>
    conv_rhs => rw [← Multiset.cons_erase h]
    simp
  | read t h hpc =>
    conv_rhs => rw [← Multiset.cons_erase h]
    simp
  | write t v h hpc =>
    conv_rhs => rw [← Multiset.cons_erase h]
    simp
  | release t h hpc =>
    conv_rhs => rw [← Multiset.cons_erase h]
    simp

theorem reach_card {n m : Nat} {c : SysConfig}
    (h : Relation.ReflTransGen IncStep (initConfig n m) c) :
    Multiset.card c.threads = n := by
  induction h with
  | refl => simp [initConfig]
  | tail hab hbc ih => rw [incStep_card hbc, ih]

/-- Claim C1: for every number of threads `n` each performing `m` increments
of the counter protected by the container (each increment read and written
while holding a token obtained via acquire), every interleaving that finishes
leaves the counter at exactly `n * m` — no lost updates. -/
theorem mutual_exclusion_counter (n m : Nat) (c : SysConfig)
    (h : Relation.ReflTransGen IncStep (initConfig n m) c) (hdone : AllDone c) :
    c.counter = n * m := by
  obtain ⟨-, hsum, -⟩ := reach_inv h
  rw [hsum, sum_map_const_of _ _ m ?_, reach_card h]
  intro t ht
  obtain ⟨hpc, hrem0⟩ := hdone t ht
  simp [contrib, hpc, hrem0]

theorem mutual_exclusion_counter_witness :
    ({ lock := 0, counter := 1,
       threads := {⟨0, TPC.ready⟩} } : SysConfig).counter = 1 * 1 := by
  have s1 : IncStep (initConfig 1 1)
      { lock := 1, counter := 0, threads := {⟨1, TPC.acquired⟩} } := by
    have h := IncStep.acquire (initConfig 1 1) ⟨1, TPC.ready⟩ 1
      (by decide) rfl (by decide) (by decide)
    exact h
  have s2 : IncStep
      ({ lock := 1, counter := 0, threads := {⟨1, TPC.acquired⟩} } : SysConfig)
      { lock := 1, counter := 0, threads := {⟨1, TPC.readDone 0⟩} } := by
    have h := IncStep.read
      ({ lock := 1, counter := 0, threads := {⟨1, TPC.acquired⟩} } : SysConfig)
      ⟨1, TPC.acquired⟩ (by decide) rfl
    exact h
  have s3 : IncStep
      ({ lock := 1, counter := 0, threads := {⟨1, TPC.readDone 0⟩} } : SysConfig)
      { lock := 1, counter := 1, threads := {⟨1, TPC.wrote⟩} } := by
    have h := IncStep.write
      ({ lock := 1, counter := 0, threads := {⟨1, TPC.readDone 0⟩} } : SysConfig)
      ⟨1, TPC.readDone 0⟩ 0 (by decide) rfl
    exact h
  have s4 : IncStep
      ({ lock := 1, counter := 1, threads := {⟨1, TPC.wrote⟩} } : SysConfig)
      { lock := 0, counter := 1, threads := {⟨0, TPC.ready⟩} } := by
    have h := IncStep.release
      ({ lock := 1, counter := 1, threads := {⟨1, TPC.wrote⟩} } : SysConfig)
      ⟨1, TPC.wrote⟩ (by decide) rfl
    exact h
  exact mutual_exclusion_counter 1 1 _
    (Relation.ReflTransGen.head s1 (Relation.ReflTransGen.head s2
      (Relation.ReflTransGen.head s3 (Relation.ReflTransGen.head s4
        Relation.ReflTransGen.refl))))
    (fun t ht => by
      rw [Multiset.mem_singleton] at ht
      subst ht
      exact ⟨rfl, rfl⟩)

end OsUnfairLock
